import Mathlib

/-!
Verification of the `http` convenience layer (src/src/http/http.ts): a paper-thin
fetch wrapper consisting of `buildUrl`, the JSON body classifier `isJsonBody`, the
`request` dispatcher/response shaper, and the five-verb facade.

Modelling conventions:
* JavaScript runtime values that may appear as a request body are the inductive
  `JsValue`; `undefined` is the constructor `JsValue.undef`, and `FormData` /
  `Blob` instances are the opaque constructors `formData` / `blob`.
* JavaScript numbers are modelled as integers (`Int`); their `String(...)`
  rendering is decimal, matching `String(n)` for integral values.
* The platform `URL` / `URLSearchParams` pair (an external primitive used by
  `buildUrl`) is modelled structurally: an absolute URL is `scheme ":" rest`
  optionally followed by `"?" query` and `"#" fragment`; the query is kept as a
  decoded list of name/value pairs, serialized with `application/x-www-form-urlencoded`
  percent-encoding (UTF-8 bytes, space as `+`), and `searchParams.set` replaces the
  first pair with a matching name and drops the other matching pairs, appending when
  the name is absent.
* The `fetch` transport is an explicit function argument (`Transport`); the result
  of the platform `response.json()` body-reading primitive is carried on the modelled
  transport response as `jsonOutcome` (an `Except`, since decoding can fail).
* Thrown exceptions are modelled by the `Except HttpFailure` monad: a `.error`
  result is an exception propagating to the caller, an `.ok` result is a normal
  return.
-/

namespace HttpWrapper

/-! ### JavaScript values and the body classifier -/

/-- A JavaScript runtime value, as far as the wrapper can distinguish them. -/
inductive JsValue where
  | undef : JsValue
  | null : JsValue
  | bool (b : Bool) : JsValue
  | num (n : Int) : JsValue
  | str (s : String) : JsValue
  | arr (elems : List JsValue) : JsValue
  | obj (fields : List (String × JsValue)) : JsValue
  | formData : JsValue
  | blob : JsValue

/-- The test `body instanceof FormData`. -/
def isFormData : JsValue → Bool
  | .formData => true
  | _ => false

/-- The test `body instanceof Blob`. -/
def isBlob : JsValue → Bool
  | .blob => true
  | _ => false

/-- The test `body === undefined`. -/
def isUndefined : JsValue → Bool
  | .undef => true
  | _ => false

/-- The body classifier from `request`:
`body !== undefined && !(body instanceof FormData) && !(body instanceof Blob)`. -/
def isJsonBody (body : JsValue) : Bool :=
  !isUndefined body && !isFormData body && !isBlob body

/-- Minimal JSON string quoting (backslash and quote escaped). -/
def jsonEscape : List Char → List Char
  | [] => []
  | c :: cs =>
    (if c == '"' then ['\\', '"'] else if c == '\\' then ['\\', '\\'] else [c]) ++
      jsonEscape cs

/-- JSON rendering of a string literal. -/
def jsonQuote (s : String) : String :=
  "\"" ++ String.mk (jsonEscape s.toList) ++ "\""

mutual

/-- The encoder `JSON.stringify` on the modelled values (the `undef` case is unreachable in
`request`, which only stringifies bodies the classifier accepted). -/
def jsonStringify : JsValue → String
  | .undef => ""
  | .null => "null"
  | .bool true => "true"
  | .bool false => "false"
  | .num n => toString n
  | .str s => jsonQuote s
  | .arr elems => "[" ++ stringifyElems elems ++ "]"
  | .obj fields => "\x7b" ++ stringifyFields fields ++ "\x7d"
  | .formData => "\x7b\x7d"
  | .blob => "\x7b\x7d"

/-- Comma-separated rendering of JSON array elements. -/
def stringifyElems : List JsValue → String
  | [] => ""
  | [v] => jsonStringify v
  | v :: rest => jsonStringify v ++ "," ++ stringifyElems rest

/-- Comma-separated rendering of JSON object fields. -/
def stringifyFields : List (String × JsValue) → String
  | [] => ""
  | [(k, v)] => jsonQuote k ++ ":" ++ jsonStringify v
  | (k, v) :: rest => jsonQuote k ++ ":" ++ jsonStringify v ++ "," ++ stringifyFields rest

end

/-! ### Header records and the object-spread merge -/

/-- A JavaScript record of header names to values (insertion-ordered). -/
abbrev HeaderMap := List (String × String)

/-- Assigning one key in a record: the existing entry is updated in place,
otherwise the entry is appended (JavaScript object key order). -/
def recordSet (m : HeaderMap) (k v : String) : HeaderMap :=
  if m.any (fun p => p.1 == k) then
    m.map (fun p => if p.1 == k then (p.1, v) else p)
  else m ++ [(k, v)]

/-- Object spread `\x7b ...base, ...extra \x7d`: later keys win. -/
def objSpread (base extra : HeaderMap) : HeaderMap :=
  extra.foldl (fun m p => recordSet m p.1 p.2) base

/-- The computed default header object:
`...(isJsonBody && \x7b 'Content-Type': 'application/json' \x7d)`. -/
def defaultHeaders (body : JsValue) : HeaderMap :=
  if isJsonBody body then [("Content-Type", "application/json")] else []

/-- The header object passed to `fetch`: computed default first, then the
caller-supplied headers spread over it. -/
def mergedHeaders (body : JsValue) (callerHeaders : HeaderMap) : HeaderMap :=
  objSpread (defaultHeaders body) callerHeaders

/-- First value of a record key (exact key match), used to state override facts. -/
def lookupKey (m : HeaderMap) (k : String) : Option String :=
  match m.filter (fun p => p.1 == k) with
  | [] => none
  | p :: _ => some p.2

/-- ASCII-insensitive lowering of a header name. -/
def lowerStr (s : String) : String := String.mk (s.toList.map Char.toLower)

/-- The platform `Headers.get`: case-insensitive name match; multiple values are combined
with `", "`; `none` models a `null` return. -/
def getHeader (hs : HeaderMap) (name : String) : Option String :=
  match (hs.filter (fun p => lowerStr p.1 == lowerStr name)).map (fun p => p.2) with
  | [] => none
  | vs => some (String.intercalate ", " vs)

/-- Whether the first list is a prefix of the second. -/
def headMatches : List Char → List Char → Bool
  | [], _ => true
  | _ :: _, [] => false
  | a :: as, b :: bs => a == b && headMatches as bs

/-- Whether `needle` occurs as a contiguous run inside the list. -/
def hasSubList (needle : List Char) : List Char → Bool
  | [] => needle.isEmpty
  | c :: rest => headMatches needle (c :: rest) || hasSubList needle rest

/-- Substring test `hay.includes(needle)` on strings. -/
def strIncludes (hay needle : String) : Bool := hasSubList needle.toList hay.toList

/-! ### The transport model and the response shaper -/

/-- Exceptions that can propagate out of a call in this model. -/
inductive HttpFailure where
  | malformedUrl : HttpFailure
  | networkFailure (message : String) : HttpFailure
  | jsonDecodeFailure (message : String) : HttpFailure
deriving DecidableEq

/-- What the wrapper reads off a settled `fetch` `Response`: status line, headers,
and the outcome that `response.json()` would produce on the received body
(`.error` when the body is not valid JSON text). -/
structure TransportResponse where
  status : Nat
  statusText : String
  headers : HeaderMap
  jsonOutcome : Except HttpFailure JsValue

/-- The flag `response.ok`: status in `[200, 300)`. -/
def respOk (r : TransportResponse) : Bool :=
  decide (200 ≤ r.status) && decide (r.status < 300)

/-- The shaped result returned to the caller. The TypeScript source is a
discriminated union of two interfaces with identical fields; the `ok` flag is the
discriminant, and the success/error distinction of the `data` field's static type
is compile-time only. -/
structure HttpResult where
  ok : Bool
  data : JsValue
  status : Nat
  statusText : String
  headers : HeaderMap
  response : TransportResponse

/-- The test `contentType?.includes('application/json')` where
`contentType = response.headers.get('content-type')`. -/
def jsonContentType (r : TransportResponse) : Bool :=
  match getHeader r.headers "content-type" with
  | some v => strIncludes v "application/json"
  | none => false

/-- Line 78: `const data = contentType?.includes('application/json') ? await response.json() : null`. -/
def decodeBody (r : TransportResponse) : Except HttpFailure JsValue :=
  if jsonContentType r then r.jsonOutcome else .ok .null

/-- Lines 77-101 of `request`: decode the body according to the content type and
package the discriminated union; a decode failure short-circuits (propagates). -/
def shapeResponse (r : TransportResponse) : Except HttpFailure HttpResult :=
  match decodeBody r with
  | .error e => .error e
  | .ok data =>
    if respOk r then
      .ok { ok := true, data := data, status := r.status, statusText := r.statusText,
            headers := r.headers, response := r }
    else
      .ok { ok := false, data := data, status := r.status, statusText := r.statusText,
            headers := r.headers, response := r }

/-! ### The URL model: percent-encoding, query strings, parsing, `searchParams.set` -/

/-- UTF-8 encoding of one code point (valid scalar values use at most 4 bytes). -/
def utf8Bytes (n : Nat) : List Nat :=
  if n < 0x80 then [n]
  else if n < 0x800 then [0xC0 + n / 64, 0x80 + n % 64]
  else if n < 0x10000 then [0xE0 + n / 4096, 0x80 + n / 64 % 64, 0x80 + n % 64]
  else [0xF0 + n / 262144, 0x80 + n / 4096 % 64, 0x80 + n / 64 % 64, 0x80 + n % 64]

/-- A UTF-8 continuation byte. -/
def isContByte (b : Nat) : Bool := decide (0x80 ≤ b) && decide (b < 0xC0)

/-- Decode one UTF-8 sequence from a lead byte and the remaining bytes: the code
point (the replacement code point `0xFFFD` for a malformed lead) and the bytes
left over. -/
def utf8Step (b : Nat) (bs : List Nat) : Nat × List Nat :=
  if b < 0x80 then (b, bs)
  else if b < 0xE0 then
    match bs with
    | b1 :: bs1 =>
      if isContByte b1 then ((b - 0xC0) * 64 + (b1 - 0x80), bs1)
      else (0xFFFD, b1 :: bs1)
    | [] => (0xFFFD, [])
  else if b < 0xF0 then
    match bs with
    | b1 :: b2 :: bs2 =>
      if isContByte b1 && isContByte b2 then
        ((b - 0xE0) * 4096 + (b1 - 0x80) * 64 + (b2 - 0x80), bs2)
      else (0xFFFD, b1 :: b2 :: bs2)
    | other => (0xFFFD, other)
  else
    match bs with
    | b1 :: b2 :: b3 :: bs3 =>
      if isContByte b1 && isContByte b2 && isContByte b3 then
        ((b - 0xF0) * 262144 + (b1 - 0x80) * 4096 + (b2 - 0x80) * 64 + (b3 - 0x80), bs3)
      else (0xFFFD, b1 :: b2 :: b3 :: bs3)
    | other => (0xFFFD, other)

/-- UTF-8 decoding of a byte list into code points; malformed sequences produce
the replacement code point `0xFFFD`. -/
def utf8DecodeCodes : List Nat → List Nat
  | [] => []
  | b :: bs => (utf8Step b bs).1 :: utf8DecodeCodes (utf8Step b bs).2
termination_by l => l.length
decreasing_by
  simp only [List.length_cons]
  refine Nat.lt_succ_of_le ?_
  unfold utf8Step
  repeat' split
  all_goals simp_all
  all_goals omega

/-- Upper-case hexadecimal digit for `n < 16`. -/
def hexDigit (n : Nat) : Char := Char.ofNat (if n < 10 then 48 + n else 55 + n)

/-- Value of one hexadecimal digit (either case). -/
def hexVal (c : Char) : Option Nat :=
  if decide (48 ≤ c.toNat) && decide (c.toNat ≤ 57) then some (c.toNat - 48)
  else if decide (65 ≤ c.toNat) && decide (c.toNat ≤ 70) then some (c.toNat - 55)
  else if decide (97 ≤ c.toNat) && decide (c.toNat ≤ 102) then some (c.toNat - 87)
  else none

/-- The `%XX` rendering of a byte list. -/
def percentEncodeBytes : List Nat → List Char
  | [] => []
  | b :: bs => '%' :: hexDigit (b / 16) :: hexDigit (b % 16) :: percentEncodeBytes bs

/-- Code points that `application/x-www-form-urlencoded` serialization leaves
unescaped: ASCII alphanumerics and `*`, `-`, `.`, `_`. -/
def isSafeCode (n : Nat) : Bool :=
  (decide (48 ≤ n) && decide (n ≤ 57)) || (decide (65 ≤ n) && decide (n ≤ 90)) ||
    (decide (97 ≤ n) && decide (n ≤ 122)) || decide (n = 42) || decide (n = 45) ||
    decide (n = 46) || decide (n = 95)

/-- Form-urlencoded serialization of one character: space becomes `+`, safe
characters stay, everything else is the percent-encoding of its UTF-8 bytes. -/
def encodeChar (c : Char) : List Char :=
  if c.toNat = 32 then ['+']
  else if isSafeCode c.toNat then [c]
  else percentEncodeBytes (utf8Bytes c.toNat)

/-- Form-urlencoded serialization of a component (a query name or value). -/
def encodeComponent : List Char → List Char
  | [] => []
  | c :: cs => encodeChar c ++ encodeComponent cs

/-- The `+`-to-space substitution done before percent-decoding. -/
def plusToSpace (c : Char) : Char := if c == '+' then ' ' else c

/-- Percent-decoding of one step: `%XX` yields one byte, any other character
contributes its UTF-8 bytes (a lone or malformed `%` stays literal). -/
def pdStep (c : Char) (rest : List Char) : List Nat × List Char :=
  if c == '%' then
    match rest with
    | h1 :: h2 :: rest2 =>
      match hexVal h1, hexVal h2 with
      | some a, some b => ([a * 16 + b], rest2)
      | _, _ => ([37], h1 :: h2 :: rest2)
    | other => ([37], other)
  else (utf8Bytes c.toNat, rest)

/-- Percent-decoding into bytes, one step at a time. -/
def percentDecodeBytes : List Char → List Nat
  | [] => []
  | c :: rest => (pdStep c rest).1 ++ percentDecodeBytes (pdStep c rest).2
termination_by l => l.length
decreasing_by
  simp only [List.length_cons]
  refine Nat.lt_succ_of_le ?_
  unfold pdStep
  repeat' split
  all_goals simp_all
  all_goals omega

/-- Form-urlencoded decoding of a component. -/
def decodeComponent (cs : List Char) : List Char :=
  (utf8DecodeCodes (percentDecodeBytes (cs.map plusToSpace))).map Char.ofNat

/-- A decoded query: an ordered list of name/value pairs, as held by
`URLSearchParams`. -/
abbrev QueryList := List (List Char × List Char)

/-- Serialization of one pair as `name=value`. -/
def serializePair (p : List Char × List Char) : List Char :=
  encodeComponent p.1 ++ '=' :: encodeComponent p.2

/-- Join with `&` separators. -/
def joinAmp : List (List Char) → List Char
  | [] => []
  | [s] => s
  | s :: rest => s ++ '&' :: joinAmp rest

/-- Serialization `URLSearchParams.toString()`. -/
def serializeQuery (q : QueryList) : List Char := joinAmp (q.map serializePair)

/-- Split a character list at every occurrence of the separator. -/
def splitSep (sep : Char) : List Char → List (List Char)
  | [] => [[]]
  | c :: rest =>
    if c == sep then [] :: splitSep sep rest
    else
      match splitSep sep rest with
      | s :: ss => (c :: s) :: ss
      | [] => [[c]]

/-- Split at the first occurrence of the separator; `none` when absent. -/
def splitAtFirst (sep : Char) : List Char → List Char × Option (List Char)
  | [] => ([], none)
  | c :: rest =>
    if c == sep then ([], some rest)
    else
      let r := splitAtFirst sep rest
      (c :: r.1, r.2)

/-- One `name=value` segment (a segment without `=` has an empty value). -/
def parsePair (seg : List Char) : List Char × List Char :=
  match splitAtFirst '=' seg with
  | (k, none) => (decodeComponent k, [])
  | (k, some v) => (decodeComponent k, decodeComponent v)

/-- Form-urlencoded parsing of a query string (empty segments are skipped). -/
def parseQuery (cs : List Char) : QueryList :=
  ((splitSep '&' cs).filter (fun seg => !seg.isEmpty)).map parsePair

/-- Characters allowed in a URL scheme after the first. -/
def isSchemeChar (c : Char) : Bool :=
  c.isAlpha || c.isDigit || c == '+' || c == '-' || c == '.'

/-- Split `scheme ':' rest`, requiring every scheme character to satisfy
`isSchemeChar`. -/
def splitScheme : List Char → Option (List Char × List Char)
  | [] => none
  | c :: rest =>
    if c == ':' then some ([], rest)
    else if isSchemeChar c then (splitScheme rest).map (fun p => (c :: p.1, p.2))
    else none

/-- The parsed URL record: `scheme ":" rest` plus the decoded query and the
fragment. `rest` (authority and path) is kept opaque; the platform's component
normalization is outside the model. -/
structure Url where
  scheme : List Char
  rest : List Char
  query : QueryList
  fragment : Option (List Char)
deriving DecidableEq

/-- Parsing `new URL(s)`: split off the fragment at the first `#`, the query at the first
`?`, then require a nonempty scheme led by a letter and followed by `:`.
`none` models the `TypeError` thrown on input that is not an absolute URL. -/
def parseUrlChars (s : List Char) : Option Url :=
  match splitScheme (splitAtFirst '?' (splitAtFirst '#' s).1).1 with
  | none => none
  | some (sch, rest) =>
    match sch with
    | [] => none
    | c :: _ =>
      if c.isAlpha then
        some { scheme := sch
               rest := rest
               query := match (splitAtFirst '?' (splitAtFirst '#' s).1).2 with
                        | none => []
                        | some q => parseQuery q
               fragment := (splitAtFirst '#' s).2 }
      else none

/-- Serialization `url.toString()`. -/
def urlToChars (u : Url) : List Char :=
  u.scheme ++ ':' :: u.rest ++
    (if u.query.isEmpty then [] else '?' :: serializeQuery u.query) ++
    (match u.fragment with
     | none => []
     | some f => '#' :: f)

/-- Parsing `new URL(s)` at the `String` level. -/
def parseUrl (s : String) : Option Url := parseUrlChars s.toList

/-- Serialization `url.toString()` at the `String` level. -/
def urlToString (u : Url) : String := String.mk (urlToChars u)

/-- The update `searchParams.set name value`: replace the first pair with this name and drop
the other pairs with this name; append when the name is absent. -/
def setParam : QueryList → List Char → List Char → QueryList
  | [], k, v => [(k, v)]
  | (k0, v0) :: rest, k, v =>
    if k0 == k then (k, v) :: rest.filter (fun p => !(p.1 == k))
    else (k0, v0) :: setParam rest k v

/-! ### `buildUrl` and the request pipeline -/

/-- A defined query-parameter value: `string | number | boolean`. -/
inductive Scalar where
  | str (s : String)
  | num (n : Int)
  | bool (b : Bool)
deriving DecidableEq

/-- JavaScript `String(value)` on a scalar. -/
def scalarToString : Scalar → String
  | .str s => s
  | .num n => toString n
  | .bool true => "true"
  | .bool false => "false"

/-- The `params` record: entries in insertion order; `none` is `undefined`. -/
abbrev Params := List (String × Option Scalar)

/-- The `Object.entries(params).forEach` loop of `buildUrl`: entries with an
`undefined` value are skipped, the rest are `searchParams.set`. -/
def setAllParams (q : QueryList) (ps : Params) : QueryList :=
  ps.foldl
    (fun acc e =>
      match e.2 with
      | none => acc
      | some sc => setParam acc e.1.toList (scalarToString sc).toList)
    q

/-- The composer `buildUrl`: parse the path as an absolute URL (`none` = thrown `TypeError`),
set each defined parameter, and serialize. -/
def buildUrl (path : String) (params : Option Params) : Option String :=
  (parseUrl path).map (fun u =>
    let q := match params with
             | none => u.query
             | some ps => setAllParams u.query ps
    urlToString { u with query := q })

/-- The request method enumeration. -/
inductive HttpMethod where
  | GET | POST | PUT | PATCH | DELETE
deriving DecidableEq

/-- The `options` record of `request`, already destructured as the source does:
`params`, `body`, `headers`, and the pass-through remainder `rest` (signal,
credentials, cache, ... — opaque to this layer). -/
structure RequestOptions where
  params : Option Params := none
  body : JsValue := .undef
  headers : HeaderMap := []
  rest : List (String × String) := []

/-- The single argument bundle handed to the `fetch` transport. -/
structure FetchCall where
  method : HttpMethod
  url : String
  headers : HeaderMap
  body : JsValue
  rest : List (String × String)

/-- The external transport primitive: one HTTP round trip, which can either
settle with a response or throw (network failure, cancellation). -/
abbrev Transport := FetchCall → Except HttpFailure TransportResponse

/-- The dispatcher `request<T>(method, path, options)`: build the URL, classify and possibly
JSON-encode the body, merge headers, issue the one transport call, and shape the
response. -/
def request (transport : Transport) (method : HttpMethod) (path : String)
    (options : RequestOptions) : Except HttpFailure HttpResult :=
  match buildUrl path options.params with
  | none => .error .malformedUrl
  | some url =>
    let fc : FetchCall :=
      { method := method
        url := url
        headers := mergedHeaders options.body options.headers
        body :=
          if isJsonBody options.body then .str (jsonStringify options.body)
          else options.body
        rest := options.rest }
    match transport fc with
    | .error e => .error e
    | .ok response => shapeResponse response

/-- Verb `http.get`. -/
def httpGet (transport : Transport) (path : String) (options : Option RequestOptions) :
    Except HttpFailure HttpResult :=
  request transport .GET path (options.getD {})

/-- Verb `http.post`: the positional body is merged into the options record last
(`\x7b ...options, body \x7d`). -/
def httpPost (transport : Transport) (path : String) (body : JsValue)
    (options : Option RequestOptions) : Except HttpFailure HttpResult :=
  request transport .POST path { options.getD {} with body := body }

/-- Verb `http.put`. -/
def httpPut (transport : Transport) (path : String) (body : JsValue)
    (options : Option RequestOptions) : Except HttpFailure HttpResult :=
  request transport .PUT path { options.getD {} with body := body }

/-- Verb `http.patch`. -/
def httpPatch (transport : Transport) (path : String) (body : JsValue)
    (options : Option RequestOptions) : Except HttpFailure HttpResult :=
  request transport .PATCH path { options.getD {} with body := body }

/-- Verb `http.delete`. -/
def httpDelete (transport : Transport) (path : String) (options : Option RequestOptions) :
    Except HttpFailure HttpResult :=
  request transport .DELETE path (options.getD {})

/-- The query pairs of a URL string, as re-parsing sees them. -/
def urlQueryPairs (s : String) : QueryList :=
  match parseUrl s with
  | some u => u.query
  | none => []

/-- The query-parameter keys of a URL string. -/
def urlQueryKeys (s : String) : List String :=
  (urlQueryPairs s).map (fun p => String.mk p.1)

/-- UTF-8 encoding of a whole character list. -/
def utf8All : List Char → List Nat
  | [] => []
  | c :: cs => utf8Bytes c.toNat ++ utf8All cs

/-- The shape invariants that `parseUrlChars` guarantees and that
`urlToChars` needs for an exact re-parse. -/
structure UrlWF (u : Url) : Prop where
  scheme_ne : u.scheme ≠ []
  head_alpha : ∀ c cs, u.scheme = c :: cs → c.isAlpha = true
  scheme_ok : ∀ c ∈ u.scheme, isSchemeChar c = true
  rest_no_question : '?' ∉ u.rest
  rest_no_hash : '#' ∉ u.rest

/-! ## Foundational lemmas: characters, hex digits, UTF-8 -/

theorem toNat_ofNat_valid (n : Nat) (h : n.isValidChar) : (Char.ofNat n).toNat = n := by
  unfold Char.ofNat
  rw [dif_pos h]
  rfl

theorem char_toNat_lt (c : Char) : c.toNat < 0x110000 := by
  rcases c.valid with h | ⟨_, h⟩
  · exact Nat.lt_trans h (by decide)
  · exact h

theorem hexDigit_toNat (n : Nat) (h : n < 16) :
    (hexDigit n).toNat = if n < 10 then 48 + n else 55 + n := by
  unfold hexDigit
  exact toNat_ofNat_valid _ (by split <;> exact Or.inl (by omega))

theorem hexVal_hexDigit (n : Nat) (h : n < 16) : hexVal (hexDigit n) = some n := by
  have ht := hexDigit_toNat n h
  by_cases hn : n < 10
  · rw [if_pos hn] at ht
    unfold hexVal
    rw [ht, if_pos (by simp; omega)]
    simp
  · rw [if_neg hn] at ht
    unfold hexVal
    rw [ht, if_neg (by simp; omega), if_pos (by simp; omega)]
    simp

theorem utf8Bytes_lt (n : Nat) (h : n < 0x110000) : ∀ b ∈ utf8Bytes n, b < 256 := by
  unfold utf8Bytes
  split_ifs <;> simp_all <;> omega

theorem utf8Step_utf8Bytes (n : Nat) (h : n < 0x110000) (r : List Nat) :
    ∃ b bs, utf8Bytes n ++ r = b :: bs ∧ utf8Step b bs = (n, r) := by
  unfold utf8Bytes
  split_ifs with h1 h2 h3
  · refine ⟨n, r, by simp, ?_⟩
    unfold utf8Step
    rw [if_pos h1]
  · refine ⟨0xC0 + n / 64, (0x80 + n % 64) :: r, by simp, ?_⟩
    unfold utf8Step
    rw [if_neg (by omega), if_pos (by omega)]
    dsimp only
    rw [if_pos (by simp [isContByte]; omega)]
    have e : (0xC0 + n / 64 - 0xC0) * 64 + (0x80 + n % 64 - 0x80) = n := by omega
    rw [e]
  · refine ⟨0xE0 + n / 4096, (0x80 + n / 64 % 64) :: (0x80 + n % 64) :: r, by simp, ?_⟩
    unfold utf8Step
    rw [if_neg (by omega), if_neg (by omega), if_pos (by omega)]
    dsimp only
    rw [if_pos (by simp [isContByte]; omega)]
    have e : (0xE0 + n / 4096 - 0xE0) * 4096 + (0x80 + n / 64 % 64 - 0x80) * 64 +
        (0x80 + n % 64 - 0x80) = n := by omega
    rw [e]
  · refine ⟨0xF0 + n / 262144,
      (0x80 + n / 4096 % 64) :: (0x80 + n / 64 % 64) :: (0x80 + n % 64) :: r, by simp, ?_⟩
    unfold utf8Step
    rw [if_neg (by omega), if_neg (by omega), if_neg (by omega)]
    dsimp only
    rw [if_pos (by simp [isContByte]; omega)]
    have e : (0xF0 + n / 262144 - 0xF0) * 262144 + (0x80 + n / 4096 % 64 - 0x80) * 4096 +
        (0x80 + n / 64 % 64 - 0x80) * 64 + (0x80 + n % 64 - 0x80) = n := by omega
    rw [e]

theorem utf8_decode_encode (n : Nat) (h : n < 0x110000) (r : List Nat) :
    utf8DecodeCodes (utf8Bytes n ++ r) = n :: utf8DecodeCodes r := by
  obtain ⟨b, bs, he, hs⟩ := utf8Step_utf8Bytes n h r
  rw [he, utf8DecodeCodes, hs]

theorem utf8DecodeCodes_utf8All (cs : List Char) :
    utf8DecodeCodes (utf8All cs) = cs.map Char.toNat := by
  induction cs with
  | nil => rw [utf8All, utf8DecodeCodes]; rfl
  | cons c cs ih =>
    simp only [utf8All, List.map_cons]
    rw [utf8_decode_encode c.toNat (char_toNat_lt c), ih]

theorem percentEncodeBytes_mem (bs : List Nat) (h : ∀ b ∈ bs, b < 256) (d : Char)
    (hd : d ∈ percentEncodeBytes bs) :
    d = '%' ∨ (48 ≤ d.toNat ∧ d.toNat ≤ 57) ∨ (65 ≤ d.toNat ∧ d.toNat ≤ 70) := by
  induction bs with
  | nil => simp [percentEncodeBytes] at hd
  | cons b bs ih =>
    have hb : b < 256 := h b (by simp)
    simp only [percentEncodeBytes, List.mem_cons] at hd
    rcases hd with hd | hd | hd | hd
    · exact Or.inl hd
    · subst hd
      rw [hexDigit_toNat (b / 16) (by omega)]
      split <;> omega
    · subst hd
      rw [hexDigit_toNat (b % 16) (by omega)]
      split <;> omega
    · exact ih (fun x hx => h x (by simp [hx])) hd

theorem pdStep_hex (b : Nat) (hb : b < 256) (r : List Char) :
    pdStep '%' (hexDigit (b / 16) :: hexDigit (b % 16) :: r) = ([b], r) := by
  unfold pdStep
  rw [if_pos (by decide)]
  dsimp only
  rw [hexVal_hexDigit (b / 16) (by omega), hexVal_hexDigit (b % 16) (by omega)]
  dsimp only
  have e : b / 16 * 16 + b % 16 = b := by omega
  rw [e]

theorem pdStep_plain (c : Char) (hc : c ≠ '%') (r : List Char) :
    pdStep c r = (utf8Bytes c.toNat, r) := by
  unfold pdStep
  rw [if_neg (by simpa using hc)]

theorem pdb_encodeBytes (bs : List Nat) (h : ∀ b ∈ bs, b < 256) (r : List Char) :
    percentDecodeBytes (percentEncodeBytes bs ++ r) = bs ++ percentDecodeBytes r := by
  induction bs with
  | nil => simp [percentEncodeBytes]
  | cons b bs ih =>
    have hb : b < 256 := h b (by simp)
    simp only [percentEncodeBytes, List.cons_append]
    rw [percentDecodeBytes, pdStep_hex b hb]
    rw [ih (fun x hx => h x (by simp [hx]))]
    simp

theorem map_plusToSpace_percentEncode (bs : List Nat) (h : ∀ b ∈ bs, b < 256) :
    (percentEncodeBytes bs).map plusToSpace = percentEncodeBytes bs := by
  refine (List.map_congr_left ?_).trans (List.map_id _)
  intro d hd
  have hne : d ≠ '+' := by
    rcases percentEncodeBytes_mem bs h d hd with hd' | hd' | hd'
    · subst hd'
      decide
    · intro he
      rw [he] at hd'
      revert hd'
      decide
    · intro he
      rw [he] at hd'
      revert hd'
      decide
  show plusToSpace d = d
  unfold plusToSpace
  rw [if_neg (by simpa using hne)]

theorem pdb_plusMap_encode (cs : List Char) :
    percentDecodeBytes ((encodeComponent cs).map plusToSpace) = utf8All cs := by
  induction cs with
  | nil => simp [encodeComponent, percentDecodeBytes, utf8All]
  | cons c cs ih =>
    simp only [encodeComponent, List.map_append, utf8All]
    unfold encodeChar
    split_ifs with hc hsafe
    · simp only [List.map_cons, List.map_nil, List.singleton_append]
      rw [show plusToSpace '+' = ' ' from by decide]
      rw [percentDecodeBytes, pdStep_plain ' ' (by decide)]
      rw [ih, hc]
      rfl
    · have hne : c ≠ '+' := by
        intro he
        rw [he] at hsafe
        revert hsafe
        decide
      have h37 : c ≠ '%' := by
        intro he
        rw [he] at hsafe
        revert hsafe
        decide
      simp only [List.map_cons, List.map_nil, List.singleton_append]
      rw [show plusToSpace c = c from by unfold plusToSpace; rw [if_neg (by simpa using hne)]]
      rw [percentDecodeBytes, pdStep_plain c h37]
      rw [ih]
    · rw [map_plusToSpace_percentEncode _ (utf8Bytes_lt c.toNat (char_toNat_lt c))]
      rw [pdb_encodeBytes _ (utf8Bytes_lt c.toNat (char_toNat_lt c)), ih]

theorem decodeComponent_encodeComponent (cs : List Char) :
    decodeComponent (encodeComponent cs) = cs := by
  unfold decodeComponent
  rw [pdb_plusMap_encode, utf8DecodeCodes_utf8All, List.map_map]
  refine (List.map_congr_left ?_).trans (List.map_id _)
  intro c _
  exact Char.ofNat_toNat c

theorem encodeComponent_code_ne (cs : List Char) (d : Char) (hd : d ∈ encodeComponent cs) :
    d.toNat ≠ 35 ∧ d.toNat ≠ 63 ∧ d.toNat ≠ 38 ∧ d.toNat ≠ 61 := by
  induction cs with
  | nil => simp [encodeComponent] at hd
  | cons c cs ih =>
    simp only [encodeComponent, List.mem_append] at hd
    rcases hd with hd | hd
    · unfold encodeChar at hd
      split_ifs at hd with hc hsafe
      · simp only [List.mem_singleton] at hd
        subst hd
        decide
      · simp only [List.mem_singleton] at hd
        subst hd
        simp only [isSafeCode, Bool.or_eq_true, Bool.and_eq_true, decide_eq_true_eq] at hsafe
        omega
      · rcases percentEncodeBytes_mem _ (utf8Bytes_lt c.toNat (char_toNat_lt c)) d hd
          with h' | h' | h'
        · subst h'
          decide
        · omega
        · omega
    · exact ih hd

theorem encodeComponent_ne_special (cs : List Char) (d : Char) (hd : d ∈ encodeComponent cs) :
    d ≠ '#' ∧ d ≠ '?' ∧ d ≠ '&' ∧ d ≠ '=' := by
  obtain ⟨h1, h2, h3, h4⟩ := encodeComponent_code_ne cs d hd
  refine ⟨fun he => h1 ?_, fun he => h2 ?_, fun he => h3 ?_, fun he => h4 ?_⟩ <;>
    rw [he] <;> decide

theorem mem_joinAmp (segs : List (List Char)) (d : Char) (hd : d ∈ joinAmp segs) :
    d = '&' ∨ ∃ s ∈ segs, d ∈ s := by
  induction segs with
  | nil => simp [joinAmp] at hd
  | cons s rest ih =>
    cases rest with
    | nil =>
      simp only [joinAmp] at hd
      exact Or.inr ⟨s, by simp, hd⟩
    | cons s2 rest2 =>
      simp only [joinAmp, List.mem_append, List.mem_cons] at hd
      rcases hd with hd | hd | hd
      · exact Or.inr ⟨s, by simp, hd⟩
      · exact Or.inl hd
      · rcases ih hd with h | ⟨t, ht, hdt⟩
        · exact Or.inl h
        · exact Or.inr ⟨t, by simp [ht], hdt⟩

theorem serializePair_mem (p : List Char × List Char) (d : Char) (hd : d ∈ serializePair p) :
    d ≠ '#' ∧ d ≠ '?' ∧ d ≠ '&' := by
  unfold serializePair at hd
  rw [List.mem_append, List.mem_cons] at hd
  rcases hd with hd | hd | hd
  · obtain ⟨a, b, c, _⟩ := encodeComponent_ne_special _ d hd
    exact ⟨a, b, c⟩
  · subst hd
    refine ⟨by decide, by decide, by decide⟩
  · obtain ⟨a, b, c, _⟩ := encodeComponent_ne_special _ d hd
    exact ⟨a, b, c⟩

theorem serializeQuery_mem (q : QueryList) (d : Char) (hd : d ∈ serializeQuery q) :
    d ≠ '#' ∧ d ≠ '?' := by
  unfold serializeQuery at hd
  rcases mem_joinAmp _ d hd with h | ⟨s, hs, hds⟩
  · subst h
    exact ⟨by decide, by decide⟩
  · obtain ⟨p, _, hp⟩ := List.mem_map.mp hs
    subst hp
    obtain ⟨a, b, _⟩ := serializePair_mem p d hds
    exact ⟨a, b⟩

theorem splitAtFirst_not_mem (sep : Char) (cs : List Char) (h : sep ∉ cs) :
    splitAtFirst sep cs = (cs, none) := by
  induction cs with
  | nil => rfl
  | cons c rest ih =>
    simp only [List.mem_cons, not_or] at h
    obtain ⟨h1, h2⟩ := h
    simp only [splitAtFirst]
    rw [if_neg (by simpa using fun he : c = sep => h1 he.symm)]
    simp [ih h2]

theorem splitAtFirst_append (sep : Char) (xs ys : List Char) (h : sep ∉ xs) :
    splitAtFirst sep (xs ++ sep :: ys) = (xs, some ys) := by
  induction xs with
  | nil =>
    simp only [List.nil_append, splitAtFirst]
    rw [if_pos (by simp)]
  | cons c rest ih =>
    simp only [List.mem_cons, not_or] at h
    obtain ⟨h1, h2⟩ := h
    simp only [List.cons_append, splitAtFirst]
    rw [if_neg (by simpa using fun he : c = sep => h1 he.symm)]
    simp [ih h2]

theorem splitSep_not_mem (sep : Char) (cs : List Char) (h : sep ∉ cs) :
    splitSep sep cs = [cs] := by
  induction cs with
  | nil => rfl
  | cons c rest ih =>
    simp only [List.mem_cons, not_or] at h
    obtain ⟨h1, h2⟩ := h
    simp only [splitSep]
    rw [if_neg (by simpa using fun he : c = sep => h1 he.symm)]
    rw [ih h2]

theorem splitSep_append (sep : Char) (xs ys : List Char) (h : sep ∉ xs) :
    splitSep sep (xs ++ sep :: ys) = xs :: splitSep sep ys := by
  induction xs with
  | nil =>
    simp only [List.nil_append, splitSep]
    rw [if_pos (by simp)]
  | cons c rest ih =>
    simp only [List.mem_cons, not_or] at h
    obtain ⟨h1, h2⟩ := h
    simp only [List.cons_append, splitSep]
    rw [if_neg (by simpa using fun he : c = sep => h1 he.symm)]
    simp only [List.append_eq]
    rw [ih h2]

theorem splitSep_joinAmp (segs : List (List Char)) (hne : segs ≠ [])
    (h : ∀ s ∈ segs, '&' ∉ s) : splitSep '&' (joinAmp segs) = segs := by
  induction segs with
  | nil => exact absurd rfl hne
  | cons s rest ih =>
    cases rest with
    | nil =>
      simp only [joinAmp]
      exact splitSep_not_mem '&' s (h s (by simp))
    | cons s2 rest2 =>
      simp only [joinAmp]
      rw [splitSep_append '&' s _ (h s (by simp))]
      rw [ih (by simp) (fun t ht => h t (by simp [ht]))]

theorem parsePair_serializePair (p : List Char × List Char) :
    parsePair (serializePair p) = p := by
  unfold serializePair parsePair
  rw [splitAtFirst_append '=' _ _
    (fun hm => absurd rfl (encodeComponent_ne_special _ '=' hm).2.2.2)]
  dsimp only
  rw [decodeComponent_encodeComponent, decodeComponent_encodeComponent]

theorem parseQuery_serializeQuery (q : QueryList) : parseQuery (serializeQuery q) = q := by
  cases q with
  | nil => rfl
  | cons p rest =>
    unfold parseQuery serializeQuery
    rw [splitSep_joinAmp ((p :: rest).map serializePair) (by simp)
      (fun s hs => by
        obtain ⟨p', _, hp⟩ := List.mem_map.mp hs
        subst hp
        exact fun hm => absurd rfl (serializePair_mem p' '&' hm).2.2)]
    rw [List.filter_eq_self.mpr
      (fun s hs => by
        obtain ⟨p', _, hp⟩ := List.mem_map.mp hs
        subst hp
        simp [serializePair])]
    rw [List.map_map]
    refine (List.map_congr_left ?_).trans (List.map_id _)
    intro p' _
    exact parsePair_serializePair p'

theorem splitScheme_append (sch rest : List Char) (h : ∀ c ∈ sch, isSchemeChar c = true) :
    splitScheme (sch ++ ':' :: rest) = some (sch, rest) := by
  induction sch with
  | nil =>
    simp only [List.nil_append, splitScheme]
    rw [if_pos (by simp)]
  | cons c cs ih =>
    have hc : isSchemeChar c = true := h c (by simp)
    simp only [List.cons_append, splitScheme]
    rw [if_neg (by
      simp only [beq_iff_eq]
      intro he
      rw [he] at hc
      revert hc
      decide)]
    simp only [List.append_eq]
    rw [if_pos hc, ih (fun d hd => h d (by simp [hd]))]
    rfl

theorem splitScheme_sound (cs : List Char) (sch rest : List Char)
    (h : splitScheme cs = some (sch, rest)) :
    cs = sch ++ ':' :: rest ∧ ∀ c ∈ sch, isSchemeChar c = true := by
  induction cs generalizing sch with
  | nil => simp [splitScheme] at h
  | cons c tail ih =>
    simp only [splitScheme] at h
    by_cases hc : (c == ':') = true
    · rw [if_pos hc] at h
      simp only [Option.some.injEq, Prod.mk.injEq] at h
      obtain ⟨h1, h2⟩ := h
      subst h2
      rw [← h1]
      simp only [beq_iff_eq] at hc
      subst hc
      exact ⟨by simp, by simp⟩
    · rw [if_neg hc] at h
      by_cases hsc : isSchemeChar c = true
      · rw [if_pos hsc] at h
        cases e : splitScheme tail with
        | none => rw [e] at h; simp at h
        | some pr =>
          rw [e] at h
          simp only [Option.map_some', Option.some.injEq, Prod.mk.injEq] at h
          obtain ⟨h1, h2⟩ := h
          subst h2
          obtain ⟨he, hall⟩ := ih pr.1 e
          rw [← h1]
          constructor
          · rw [List.cons_append, ← he]
          · intro d hd
            rcases List.mem_cons.mp hd with rfl | hd'
            · exact hsc
            · exact hall d hd'
      · rw [if_neg hsc] at h
        simp at h

theorem splitAtFirst_fst_subset (sep : Char) (cs : List Char) (d : Char)
    (hd : d ∈ (splitAtFirst sep cs).1) : d ∈ cs := by
  induction cs with
  | nil => simp [splitAtFirst] at hd
  | cons c rest ih =>
    simp only [splitAtFirst] at hd
    by_cases hc : (c == sep) = true
    · rw [if_pos hc] at hd
      simp at hd
    · rw [if_neg hc] at hd
      simp only [List.mem_cons] at hd ⊢
      rcases hd with rfl | hd
      · exact Or.inl rfl
      · exact Or.inr (ih hd)

theorem splitAtFirst_fst_not_mem (sep : Char) (cs : List Char) :
    sep ∉ (splitAtFirst sep cs).1 := by
  induction cs with
  | nil => simp [splitAtFirst]
  | cons c rest ih =>
    simp only [splitAtFirst]
    by_cases hc : (c == sep) = true
    · rw [if_pos hc]
      simp
    · rw [if_neg hc]
      simp only [List.mem_cons, not_or]
      refine ⟨?_, ih⟩
      simp only [beq_iff_eq] at hc
      exact fun he => hc he.symm

theorem wf_of_parse (s : List Char) (u : Url) (h : parseUrlChars s = some u) : UrlWF u := by
  unfold parseUrlChars at h
  cases e : splitScheme (splitAtFirst '?' (splitAtFirst '#' s).1).1 with
  | none => rw [e] at h; simp at h
  | some pr =>
    rw [e] at h
    obtain ⟨sch, rest⟩ := pr
    cases hsch : sch with
    | nil => rw [hsch] at h; simp at h
    | cons c cs0 =>
      rw [hsch] at h e
      dsimp only at h
      by_cases ha : c.isAlpha = true
      · rw [if_pos ha] at h
        simp only [Option.some.injEq] at h
        obtain ⟨he, hall⟩ := splitScheme_sound _ _ _ e
        subst h
        refine ⟨by simp, ?_, ?_, ?_, ?_⟩
        · intro c' cs' hc'
          simp only at hc'
          rw [List.cons_eq_cons] at hc'
          rw [← hc'.1]
          exact ha
        · exact hall
        · intro hq
          have hm : '?' ∈ (splitAtFirst '?' (splitAtFirst '#' s).1).1 := by
            rw [he]
            simp [hq]
          exact splitAtFirst_fst_not_mem _ _ hm
        · intro hq
          have hm : '#' ∈ (splitAtFirst '#' s).1 := by
            apply splitAtFirst_fst_subset '?'
            rw [he]
            simp [hq]
          exact splitAtFirst_fst_not_mem _ _ hm
      · rw [if_neg ha] at h
        simp at h

theorem parse_toString (u : Url) (hwf : UrlWF u) : parseUrlChars (urlToChars u) = some u := by
  obtain ⟨hne, halpha, hok, hqr, hhr⟩ := hwf
  have hbase_nq : '?' ∉ u.scheme ++ ':' :: u.rest := by
    intro hm
    rcases List.mem_append.mp hm with hm | hm
    · have hx := hok '?' hm
      revert hx
      decide
    · rcases List.mem_cons.mp hm with he | hm
      · exact absurd he (by decide)
      · exact hqr hm
  have hbase_nh : '#' ∉ u.scheme ++ ':' :: u.rest := by
    intro hm
    rcases List.mem_append.mp hm with hm | hm
    · have hx := hok '#' hm
      revert hx
      decide
    · rcases List.mem_cons.mp hm with he | hm
      · exact absurd he (by decide)
      · exact hhr hm
  have hQ_nh :
      '#' ∉ (if u.query.isEmpty then ([] : List Char) else '?' :: serializeQuery u.query) := by
    split
    · simp
    · intro hm
      rcases List.mem_cons.mp hm with he | hm
      · exact absurd he (by decide)
      · exact (serializeQuery_mem _ _ hm).1 rfl
  have hstep1 : splitAtFirst '#' (urlToChars u) =
      (u.scheme ++ ':' :: u.rest ++
        (if u.query.isEmpty then [] else '?' :: serializeQuery u.query), u.fragment) := by
    unfold urlToChars
    cases hf : u.fragment with
    | none =>
      dsimp only
      rw [List.append_nil]
      exact splitAtFirst_not_mem '#' _
        (fun hm => (List.mem_append.mp hm).elim (fun h1 => hbase_nh h1) (fun h2 => hQ_nh h2))
    | some f =>
      dsimp only
      exact splitAtFirst_append '#' _ f
        (fun hm => (List.mem_append.mp hm).elim (fun h1 => hbase_nh h1) (fun h2 => hQ_nh h2))
  have hstep2 : splitAtFirst '?' (u.scheme ++ ':' :: u.rest ++
      (if u.query.isEmpty then [] else '?' :: serializeQuery u.query)) =
      (u.scheme ++ ':' :: u.rest,
        if u.query.isEmpty then none else some (serializeQuery u.query)) := by
    by_cases he : u.query.isEmpty
    · rw [if_pos he, if_pos he, List.append_nil]
      exact splitAtFirst_not_mem '?' _ hbase_nq
    · rw [if_neg he, if_neg he]
      exact splitAtFirst_append '?' _ _ hbase_nq
  unfold parseUrlChars
  rw [hstep1]
  dsimp only
  rw [hstep2]
  dsimp only
  rw [splitScheme_append _ _ hok]
  cases hs : u.scheme with
  | nil => exact absurd hs hne
  | cons c cs0 =>
    dsimp only
    rw [if_pos (halpha c cs0 hs)]
    by_cases he : u.query.isEmpty
    · rw [if_pos he]
      dsimp only
      rw [← hs, ← List.isEmpty_iff.mp he]
    · rw [if_neg he]
      dsimp only
      rw [← hs, parseQuery_serializeQuery]

/-! ## `searchParams.set` lemmas -/

theorem filter_setParam_self (q : QueryList) (k v : List Char) :
    (setParam q k v).filter (fun p => p.1 == k) = [(k, v)] := by
  induction q with
  | nil => simp [setParam]
  | cons e rest ih =>
    obtain ⟨k0, v0⟩ := e
    rw [setParam]
    by_cases hk : (k0 == k) = true
    · rw [if_pos hk]
      rw [List.filter_cons_of_pos (by simp)]
      have hrest : (rest.filter (fun p => !(p.1 == k))).filter (fun p => p.1 == k) = [] := by
        rw [List.filter_eq_nil_iff]
        intro a ha
        have := (List.mem_filter.mp ha).2
        simp only [Bool.not_eq_true'] at this
        simp [this]
      rw [hrest]
    · rw [if_neg hk]
      rw [List.filter_cons_of_neg (by simpa using hk)]
      exact ih

theorem filter_setParam_other (q : QueryList) (k v k' : List Char) (hne : k' ≠ k) :
    (setParam q k v).filter (fun p => p.1 == k') = q.filter (fun p => p.1 == k') := by
  induction q with
  | nil =>
    simp [setParam, List.filter_cons]
    intro he
    exact absurd he.symm hne
  | cons e rest ih =>
    obtain ⟨k0, v0⟩ := e
    rw [setParam]
    by_cases hk : (k0 == k) = true
    · rw [if_pos hk]
      simp only [beq_iff_eq] at hk
      subst hk
      rw [List.filter_cons_of_neg (by simpa using fun he : k0 = k' => hne he.symm)]
      rw [List.filter_cons_of_neg (by simpa using fun he : k0 = k' => hne he.symm)]
      rw [List.filter_filter]
      apply List.filter_congr
      intro a _
      by_cases ha : (a.1 == k') = true
      · rw [ha, Bool.true_and]
        simp only [beq_iff_eq] at ha
        rw [ha]
        rw [show (k' == k0) = false from by simpa using hne]
        rfl
      · simp only [Bool.not_eq_true] at ha
        rw [ha, Bool.false_and]
    · rw [if_neg hk]
      by_cases hk' : (k0 == k') = true
      · rw [List.filter_cons_of_pos (by simpa using hk'), List.filter_cons_of_pos (by simpa using hk')]
        rw [ih]
      · rw [List.filter_cons_of_neg (by simpa using hk'), List.filter_cons_of_neg (by simpa using hk')]
        exact ih

theorem setParam_eq_self (q : QueryList) (k v : List Char)
    (h : q.filter (fun p => p.1 == k) = [(k, v)]) : setParam q k v = q := by
  induction q with
  | nil => simp at h
  | cons e rest ih =>
    obtain ⟨k0, v0⟩ := e
    rw [setParam]
    by_cases hk : (k0 == k) = true
    · rw [if_pos hk]
      rw [List.filter_cons_of_pos (by simp [hk])] at h
      simp only [List.cons.injEq, Prod.mk.injEq] at h
      obtain ⟨⟨hk0, hv0⟩, hrest⟩ := h
      rw [List.filter_eq_nil_iff] at hrest
      have : rest.filter (fun p => !(p.1 == k)) = rest := by
        rw [List.filter_eq_self]
        intro a ha
        have := hrest a ha
        simp only [Bool.not_eq_true] at this ⊢
        simp [this]
      rw [this, hk0, hv0]
    · rw [if_neg hk]
      rw [List.filter_cons_of_neg (by simpa using hk)] at h
      rw [ih h]

/-! ## `setAllParams` lemmas -/

theorem toList_injective (s t : String) (h : s.toList = t.toList) : s = t := by
  cases s
  cases t
  exact congrArg String.mk (by simpa [String.toList] using h)

theorem setAllParams_cons (q : QueryList) (e : String × Option Scalar) (tl : Params) :
    setAllParams q (e :: tl) =
      setAllParams
        (match e.2 with
         | none => q
         | some sc => setParam q e.1.toList (scalarToString sc).toList) tl := by
  rfl

theorem filter_setAllParams_skip (ps : Params) (k : String)
    (hk : ∀ e ∈ ps, e.1 = k → e.2 = none) (q : QueryList) :
    (setAllParams q ps).filter (fun p => p.1 == k.toList) =
      q.filter (fun p => p.1 == k.toList) := by
  induction ps generalizing q with
  | nil => rfl
  | cons e tl ih =>
    rw [setAllParams_cons]
    cases h2 : e.2 with
    | none => exact ih (fun d hd => hk d (by simp [hd])) _
    | some sc =>
      have hne : e.1 ≠ k := by
        intro he
        have := hk e (by simp) he
        rw [h2] at this
        exact Option.noConfusion this
      rw [ih (fun d hd => hk d (by simp [hd])) _]
      exact filter_setParam_other q e.1.toList (scalarToString sc).toList k.toList
        (fun hch => hne (toList_injective e.1 k hch.symm))

theorem setAllParams_idem (ps : Params) (hnodup : (ps.map Prod.fst).Nodup) (q : QueryList) :
    setAllParams (setAllParams q ps) ps = setAllParams q ps := by
  induction ps generalizing q with
  | nil => rfl
  | cons e tl ih =>
    have hnd_tl : (tl.map Prod.fst).Nodup := (List.nodup_cons.mp hnodup).2
    have hnotin : e.1 ∉ tl.map Prod.fst := (List.nodup_cons.mp hnodup).1
    cases h2 : e.2 with
    | none =>
      simp only [setAllParams_cons, h2]
      exact ih hnd_tl _
    | some sc =>
      simp only [setAllParams_cons, h2]
      have hfix : setParam (setAllParams (setParam q e.1.toList (scalarToString sc).toList) tl)
          e.1.toList (scalarToString sc).toList =
          setAllParams (setParam q e.1.toList (scalarToString sc).toList) tl := by
        apply setParam_eq_self
        rw [filter_setAllParams_skip tl e.1
          (fun d hd he => absurd (he ▸ (List.mem_map.mpr ⟨d, hd, rfl⟩)) hnotin) _]
        exact filter_setParam_self q _ _
      rw [hfix]
      exact ih hnd_tl _

/-! ## `buildUrl`-level lemmas -/

theorem mk_toList (s : String) : String.mk s.toList = s := by
  cases s
  rfl

theorem urlWF_setQuery (u : Url) (h : UrlWF u) (q : QueryList) : UrlWF { u with query := q } :=
  ⟨h.scheme_ne, h.head_alpha, h.scheme_ok, h.rest_no_question, h.rest_no_hash⟩

theorem parseUrl_urlToString (u : Url) (h : UrlWF u) : parseUrl (urlToString u) = some u :=
  parse_toString u h

theorem wf_of_parseUrl (s : String) (u : Url) (h : parseUrl s = some u) : UrlWF u :=
  wf_of_parse s.toList u h

theorem urlQueryPairs_urlToString (u : Url) (h : UrlWF u) :
    urlQueryPairs (urlToString u) = u.query := by
  unfold urlQueryPairs
  rw [parseUrl_urlToString u h]

theorem buildUrl_eq_some (path : String) (u : Url) (hp : parseUrl path = some u) (ps : Params) :
    buildUrl path (some ps) = some (urlToString { u with query := setAllParams u.query ps }) := by
  unfold buildUrl
  rw [hp]
  rfl

theorem buildUrl_eq_none (path : String) (hp : parseUrl path = none) (params : Option Params) :
    buildUrl path params = none := by
  unfold buildUrl
  rw [hp]
  rfl

/-! ## Claim theorems: URL composer -/

/-- Claim C5: for every base URL and parameter mapping, every parameter entry whose
value is absent (`undefined`) is omitted: the composed URL's query string never
contains that entry's key, provided the key did not already occur in the base URL's
query and no other entry defines it. -/
theorem claim_C5 (path s : String) (ps : Params) (k : String)
    (hb : buildUrl path (some ps) = some s)
    (hk : ∀ e ∈ ps, e.1 = k → e.2 = none)
    (hbase : k ∉ urlQueryKeys path) :
    k ∉ urlQueryKeys s := by
  cases hp : parseUrl path with
  | none =>
    rw [buildUrl_eq_none path hp] at hb
    exact Option.noConfusion hb
  | some u =>
    rw [buildUrl_eq_some path u hp ps] at hb
    have hwf := wf_of_parseUrl path u hp
    have hs : s = urlToString { u with query := setAllParams u.query ps } :=
      (Option.some.inj hb).symm
    subst hs
    intro hmem
    unfold urlQueryKeys at hmem
    rw [urlQueryPairs_urlToString _ (urlWF_setQuery u hwf _)] at hmem
    obtain ⟨p, hpmem, hpk⟩ := List.mem_map.mp hmem
    have hp1 : p.1 = k.toList := by
      rw [← hpk]
      rfl
    have hfil := filter_setAllParams_skip ps k hk u.query
    have hbase' : u.query.filter (fun p => p.1 == k.toList) = [] := by
      rw [List.filter_eq_nil_iff]
      intro a ha hak
      apply hbase
      unfold urlQueryKeys urlQueryPairs
      rw [hp]
      simp only [beq_iff_eq] at hak
      exact List.mem_map.mpr ⟨a, ha, by rw [hak, mk_toList]⟩
    have hcontra : p ∈ (setAllParams u.query ps).filter (fun p => p.1 == k.toList) :=
      List.mem_filter.mpr ⟨hpmem, by simp [hp1]⟩
    rw [hfil, hbase'] at hcontra
    exact absurd hcontra (List.not_mem_nil p)

/-- Witness for C5 at a concrete input: the entry `q ↦ undefined` leaves `q` out
of the composed URL. -/
theorem claim_C5_witness : "q" ∉ urlQueryKeys "http://example.com/a" :=
  claim_C5 "http://example.com/a" "http://example.com/a" [("q", none)] "q"
    (by rfl) (by decide) (by decide)

/-- Claim C6: for all valid absolute URLs and parameter mappings with distinct keys
and no absent values, composing is idempotent under re-parsing: composing the
result again with the same mapping returns the very same URL string — in
particular the same query parameter values — because each key is set
(overwritten, not append-duplicated) to the value's stable string representation
(`true`/`false` for booleans, decimal for numbers). -/
theorem claim_C6 (u0 s : String) (ps : Params)
    (hnodup : (ps.map Prod.fst).Nodup)
    (_hdef : ∀ e ∈ ps, e.2 ≠ none)
    (hb : buildUrl u0 (some ps) = some s) :
    buildUrl s (some ps) = some s := by
  cases hp : parseUrl u0 with
  | none =>
    rw [buildUrl_eq_none u0 hp] at hb
    exact Option.noConfusion hb
  | some u =>
    rw [buildUrl_eq_some u0 u hp ps] at hb
    have hwf := wf_of_parseUrl u0 u hp
    have hwf' := urlWF_setQuery u hwf (setAllParams u.query ps)
    have hs : s = urlToString { u with query := setAllParams u.query ps } :=
      (Option.some.inj hb).symm
    subst hs
    rw [buildUrl_eq_some _ _ (parseUrl_urlToString _ hwf') ps]
    rw [show setAllParams ({ u with query := setAllParams u.query ps } : Url).query ps
        = setAllParams u.query ps from setAllParams_idem ps hnodup u.query]

/-- Witness for C6 at a concrete input. -/
theorem claim_C6_witness :
    buildUrl "http://example.com/a?k=1" (some [("k", some (.num 1))]) =
      some "http://example.com/a?k=1" :=
  claim_C6 "http://example.com/a" "http://example.com/a?k=1" [("k", some (.num 1))]
    (by decide) (by decide) (by rfl)

/-- Claim C8: for every base string that the URL parser rejects (not a valid
absolute URL — e.g. a relative path), `request` and every verb operation fail
with the malformed-URL condition, which propagates uncaught to the caller: no
Result is ever returned, whatever the transport, method, body, or options. -/
theorem claim_C8 (path : String) (h : parseUrl path = none) (t : Transport)
    (m : HttpMethod) (o : RequestOptions) (body : JsValue) :
    request t m path o = .error .malformedUrl ∧
    httpGet t path (some o) = .error .malformedUrl ∧
    httpPost t path body (some o) = .error .malformedUrl ∧
    httpPut t path body (some o) = .error .malformedUrl ∧
    httpPatch t path body (some o) = .error .malformedUrl ∧
    httpDelete t path (some o) = .error .malformedUrl := by
  have hreq : ∀ (m' : HttpMethod) (o' : RequestOptions),
      request t m' path o' = .error .malformedUrl := by
    intro m' o'
    unfold request
    rw [buildUrl_eq_none path h o'.params]
  exact ⟨hreq m o, hreq _ _, hreq _ _, hreq _ _, hreq _ _, hreq _ _⟩

/-- Witness for C8 at a concrete input: a relative path is rejected by every
entry point. -/
theorem claim_C8_witness :
    request (fun _ => Except.error (.networkFailure "down")) .GET "/users" {} =
        .error .malformedUrl ∧
      httpGet (fun _ => Except.error (.networkFailure "down")) "/users" (some {}) =
        .error .malformedUrl ∧
      httpPost (fun _ => Except.error (.networkFailure "down")) "/users" .null (some {}) =
        .error .malformedUrl ∧
      httpPut (fun _ => Except.error (.networkFailure "down")) "/users" .null (some {}) =
        .error .malformedUrl ∧
      httpPatch (fun _ => Except.error (.networkFailure "down")) "/users" .null (some {}) =
        .error .malformedUrl ∧
      httpDelete (fun _ => Except.error (.networkFailure "down")) "/users" (some {}) =
        .error .malformedUrl :=
  claim_C8 "/users" (by rfl) _ .GET {} .null

/-! ## Response-shaper lemmas and claims -/

theorem shapeResponse_of_decode (r : TransportResponse) (d : JsValue)
    (h : decodeBody r = .ok d) :
    shapeResponse r = .ok
      { ok := respOk r, data := d, status := r.status, statusText := r.statusText,
        headers := r.headers, response := r } := by
  unfold shapeResponse
  rw [h]
  dsimp only
  by_cases hr : respOk r = true
  · rw [if_pos hr, hr]
  · rw [if_neg hr]
    simp only [Bool.not_eq_true] at hr
    rw [hr]

/-- Claim C1: for every transport response whose decode step succeeds, shaping
returns normally — a 4xx/5xx status never raises — and the Result's success flag
is `decide (status ∈ [200, 300))`, derived solely from the transport's success
indicator; the Error variant carries exactly the same decoded body, status,
statusText, headers and raw response fields as the Success variant would. -/
theorem claim_C1 (r : TransportResponse) (d : JsValue) (h : decodeBody r = .ok d) :
    shapeResponse r = .ok
      { ok := decide (200 ≤ r.status ∧ r.status < 300), data := d, status := r.status,
        statusText := r.statusText, headers := r.headers, response := r } := by
  rw [shapeResponse_of_decode r d h]
  have hok : respOk r = decide (200 ≤ r.status ∧ r.status < 300) := by
    unfold respOk
    by_cases h1 : 200 ≤ r.status <;> by_cases h2 : r.status < 300 <;> simp [h1, h2]
  rw [hok]

/-- Witness for C1 at a concrete input: a 404 JSON response comes back as the
Error variant, not as a raised failure. -/
theorem claim_C1_witness :
    shapeResponse
      { status := 404, statusText := "Not Found",
        headers := [("Content-Type", "application/json")],
        jsonOutcome := .ok (.obj [("error", .str "missing")]) } = .ok
      { ok := false, data := .obj [("error", .str "missing")], status := 404,
        statusText := "Not Found", headers := [("Content-Type", "application/json")],
        response :=
          { status := 404, statusText := "Not Found",
            headers := [("Content-Type", "application/json")],
            jsonOutcome := .ok (.obj [("error", .str "missing")]) } } :=
  claim_C1 _ _ (by rfl)

/-- Claim C2: the shaper decodes the body as JSON exactly when the content-type
header's value contains the substring "application/json"; when it does not (or
the header is absent) the data field is set to null without attempting any other
decode; in particular a status-204 response with no content-type header yields a
Success result with null data. -/
theorem claim_C2 (r : TransportResponse) :
    (jsonContentType r =
      ((getHeader r.headers "content-type").map
        (fun v => strIncludes v "application/json")).getD false) ∧
    (jsonContentType r = false →
      shapeResponse r = .ok
        { ok := respOk r, data := .null, status := r.status, statusText := r.statusText,
          headers := r.headers, response := r }) ∧
    (jsonContentType r = true → decodeBody r = r.jsonOutcome) ∧
    (r.status = 204 → getHeader r.headers "content-type" = none →
      shapeResponse r = .ok
        { ok := true, data := .null, status := r.status, statusText := r.statusText,
          headers := r.headers, response := r }) := by
  refine ⟨?_, ?_, ?_, ?_⟩
  · unfold jsonContentType
    cases getHeader r.headers "content-type" <;> rfl
  · intro h
    exact shapeResponse_of_decode r .null (by unfold decodeBody; rw [h]; rfl)
  · intro h
    unfold decodeBody
    rw [h]
    rfl
  · intro h204 hct
    have hok : respOk r = true := by
      unfold respOk
      rw [h204]
      rfl
    have hjf : jsonContentType r = false := by
      unfold jsonContentType
      rw [hct]
    have := shapeResponse_of_decode r .null (by unfold decodeBody; rw [hjf]; rfl)
    rw [hok] at this
    exact this

/-- Witness for C2 at a concrete input: status 204, no content-type header. -/
theorem claim_C2_witness :
    shapeResponse
      { status := 204, statusText := "No Content", headers := [],
        jsonOutcome := .error (.jsonDecodeFailure "empty body") } = .ok
      { ok := true, data := .null, status := 204, statusText := "No Content",
        headers := [],
        response :=
          { status := 204, statusText := "No Content", headers := [],
            jsonOutcome := .error (.jsonDecodeFailure "empty body") } } :=
  (claim_C2 _).2.2.2 rfl (by rfl)

/-- Claim C7: whenever the content-type response header claims JSON but the body is
not valid JSON text, the decode failure is not caught: it propagates as an
unrecovered failure of the whole call — no Result is returned — regardless of
whether the response had a success or an error status. -/
theorem claim_C7 (r : TransportResponse) (e : HttpFailure)
    (hct : jsonContentType r = true) (hj : r.jsonOutcome = .error e) :
    shapeResponse r = .error e ∧
    ∀ (m : HttpMethod) (path : String) (o : RequestOptions) (url : String),
      buildUrl path o.params = some url →
      request (fun _ => .ok r) m path o = .error e := by
  have hd : decodeBody r = .error e := by
    unfold decodeBody
    rw [hct, hj]
    rfl
  constructor
  · unfold shapeResponse
    rw [hd]
  · intro m path o url hb
    unfold request
    rw [hb]
    dsimp only
    unfold shapeResponse
    rw [hd]

/-- Witness for C7 at a concrete input: a 200 response whose content-type claims
JSON but whose body fails to decode makes the whole call fail. -/
theorem claim_C7_witness :
    shapeResponse
      { status := 200, statusText := "OK",
        headers := [("content-type", "application/json; charset=utf-8")],
        jsonOutcome := .error (.jsonDecodeFailure "unexpected token") } =
      .error (.jsonDecodeFailure "unexpected token") ∧
    ∀ (m : HttpMethod) (path : String) (o : RequestOptions) (url : String),
      buildUrl path o.params = some url →
      request
        (fun _ => .ok
          { status := 200, statusText := "OK",
            headers := [("content-type", "application/json; charset=utf-8")],
            jsonOutcome := .error (.jsonDecodeFailure "unexpected token") })
        m path o = .error (.jsonDecodeFailure "unexpected token") :=
  claim_C7 _ _ (by rfl) (by rfl)

/-- Claim C3: the body classifier returns false exactly when the body is undefined,
a FormData container, or a Blob; it returns true for every other defined value,
including plain objects, arrays, strings, numbers, booleans, and null. -/
theorem claim_C3 (v : JsValue) :
    isJsonBody v = false ↔ (v = .undef ∨ v = .formData ∨ v = .blob) := by
  cases v <;> simp [isJsonBody, isUndefined, isFormData, isBlob]

/-! ## Header-merge lemmas and claim C4 -/

theorem filter_key_map_set (m : HeaderMap) (k k' v : String) :
    (m.map (fun p => if p.1 == k then (p.1, v) else p)).filter (fun p => p.1 == k') =
      (m.filter (fun p => p.1 == k')).map (fun p => if p.1 == k then (p.1, v) else p) := by
  induction m with
  | nil => rfl
  | cons e rest ih =>
    simp only [List.map_cons]
    by_cases he : (e.1 == k) = true
    · rw [if_pos he]
      by_cases he' : (e.1 == k') = true
      · rw [List.filter_cons_of_pos (by simpa using he'),
          List.filter_cons_of_pos (by simpa using he')]
        simp only [List.map_cons]
        rw [if_pos he, ih]
      · rw [List.filter_cons_of_neg (by simpa using he'),
          List.filter_cons_of_neg (by simpa using he')]
        exact ih
    · rw [if_neg he]
      by_cases he' : (e.1 == k') = true
      · rw [List.filter_cons_of_pos (by simpa using he'),
          List.filter_cons_of_pos (by simpa using he')]
        simp only [List.map_cons]
        rw [if_neg he, ih]
      · rw [List.filter_cons_of_neg (by simpa using he'),
          List.filter_cons_of_neg (by simpa using he')]
        exact ih

theorem lookupKey_recordSet_self (m : HeaderMap) (k v : String) :
    lookupKey (recordSet m k v) k = some v := by
  unfold recordSet
  by_cases h : m.any (fun p => p.1 == k) = true
  · rw [if_pos h]
    unfold lookupKey
    rw [filter_key_map_set]
    cases e : m.filter (fun p => p.1 == k) with
    | nil =>
      rw [List.filter_eq_nil_iff] at e
      obtain ⟨p, hp, hpk⟩ := List.any_eq_true.mp h
      exact absurd hpk (e p hp)
    | cons a t =>
      have hak : (a.1 == k) = true := by
        have : a ∈ m.filter (fun p => p.1 == k) := by
          rw [e]
          exact List.mem_cons_self a t
        exact (List.mem_filter.mp this).2
      simp only [List.map_cons]
      rw [if_pos hak]
  · rw [if_neg h]
    unfold lookupKey
    rw [List.filter_append]
    have hm : m.filter (fun p => p.1 == k) = [] := by
      rw [List.filter_eq_nil_iff]
      intro p hp hpk
      exact h (List.any_eq_true.mpr ⟨p, hp, hpk⟩)
    rw [hm]
    simp

theorem lookupKey_recordSet_other (m : HeaderMap) (k k' v : String) (hne : k' ≠ k) :
    lookupKey (recordSet m k v) k' = lookupKey m k' := by
  unfold recordSet
  by_cases h : m.any (fun p => p.1 == k) = true
  · rw [if_pos h]
    unfold lookupKey
    rw [filter_key_map_set]
    cases e : m.filter (fun p => p.1 == k') with
    | nil => rfl
    | cons a t =>
      have hak : (a.1 == k') = true := by
        have : a ∈ m.filter (fun p => p.1 == k') := by
          rw [e]
          exact List.mem_cons_self a t
        exact (List.mem_filter.mp this).2
      simp only [List.map_cons]
      rw [if_neg (by
        simp only [beq_iff_eq] at hak ⊢
        rw [hak]
        exact fun he => hne he)]
  · rw [if_neg h]
    unfold lookupKey
    rw [List.filter_append]
    rw [show ([(k, v)] : HeaderMap).filter (fun p => p.1 == k') = [] from by
      simp
      exact fun he => hne he.symm]
    rw [List.append_nil]

theorem lookupKey_objSpread_not_mem (base : HeaderMap) (hs : HeaderMap) (k : String)
    (h : ∀ e ∈ hs, e.1 ≠ k) : lookupKey (objSpread base hs) k = lookupKey base k := by
  induction hs generalizing base with
  | nil => rfl
  | cons e tl ih =>
    show lookupKey (objSpread (recordSet base e.1 e.2) tl) k = _
    rw [ih _ (fun d hd => h d (by simp [hd]))]
    exact lookupKey_recordSet_other base e.1 k e.2 (fun he => h e (by simp) he.symm)

theorem lookupKey_objSpread_mem (base : HeaderMap) (hs : HeaderMap) (k v : String)
    (hnodup : (hs.map Prod.fst).Nodup) (h : lookupKey hs k = some v) :
    lookupKey (objSpread base hs) k = some v := by
  induction hs generalizing base with
  | nil => exact absurd h (by simp [lookupKey])
  | cons e tl ih =>
    show lookupKey (objSpread (recordSet base e.1 e.2) tl) k = some v
    by_cases he : (e.1 == k) = true
    · have hv : e.2 = v := by
        unfold lookupKey at h
        rw [List.filter_cons_of_pos (by simpa using he)] at h
        exact Option.some.inj h
      simp only [beq_iff_eq] at he
      subst he
      subst hv
      rw [lookupKey_objSpread_not_mem _ tl e.1
        (fun d hd hde => (List.nodup_cons.mp hnodup).1 (List.mem_map.mpr ⟨d, hd, hde⟩))]
      exact lookupKey_recordSet_self base e.1 e.2
    · have h' : lookupKey tl k = some v := by
        unfold lookupKey at h
        rw [List.filter_cons_of_neg (by simpa using he)] at h
        exact h
      exact ih _ (List.nodup_cons.mp hnodup).2 h'

/-- Claim C4: the final header mapping is built by an ordered merge — the computed
default (`Content-Type: application/json`, injected exactly when the body
classifier accepts the body) first, then caller-supplied headers applied second
with later keys winning. Hence a caller-supplied `Content-Type` always overrides
the injected default, and for a non-JSON body (e.g. FormData) with no
caller-supplied `Content-Type` no `Content-Type` (in particular no
`application/json`) is present at all. -/
theorem claim_C4 (b : JsValue) (hs : HeaderMap) :
    mergedHeaders b hs =
      objSpread (if isJsonBody b then [("Content-Type", "application/json")] else []) hs ∧
    ((hs.map Prod.fst).Nodup → ∀ v, lookupKey hs "Content-Type" = some v →
      lookupKey (mergedHeaders b hs) "Content-Type" = some v) ∧
    (isJsonBody b = false → lookupKey hs "Content-Type" = none →
      lookupKey (mergedHeaders b hs) "Content-Type" = none) := by
  refine ⟨rfl, ?_, ?_⟩
  · intro hnodup v h
    exact lookupKey_objSpread_mem _ hs "Content-Type" v hnodup h
  · intro hb h
    have hkeys : ∀ e ∈ hs, e.1 ≠ "Content-Type" := by
      intro e he hek
      unfold lookupKey at h
      cases e' : hs.filter (fun p => p.1 == "Content-Type") with
      | nil =>
        rw [List.filter_eq_nil_iff] at e'
        exact e' e he (by simp [hek])
      | cons a t => rw [e'] at h; exact Option.noConfusion h
    unfold mergedHeaders defaultHeaders
    rw [hb]
    simp only [Bool.false_eq_true, if_false]
    rw [lookupKey_objSpread_not_mem [] hs "Content-Type" hkeys]
    rfl

/-- Witness for C4 at a concrete input: a caller-supplied Content-Type survives
the merge even for a JSON body. -/
theorem claim_C4_witness :
    lookupKey (mergedHeaders (.obj [("name", .str "Bob")])
      [("Content-Type", "text/plain")]) "Content-Type" = some "text/plain" :=
  (claim_C4 (.obj [("name", .str "Bob")]) [("Content-Type", "text/plain")]).2.1
    (by decide) "text/plain" (by rfl)

/-! ## Dispatcher claims C9 and C10 -/

/-- Claim C9: for every dispatch with a well-formed URL, `request` factors through
exactly one transport call; the call carries the given method, the composed URL,
the merged header set, the final body — the JSON text encoding of the caller's
body exactly when the classifier accepts it, the untouched value (including the
absent case) otherwise — and the pass-through options forwarded unmodified.
`params` and `body` are consumed: the transport call has no slot for them beyond
the composed URL and final body. -/
theorem claim_C9 (t : Transport) (m : HttpMethod) (path : String) (o : RequestOptions)
    (url : String) (hb : buildUrl path o.params = some url) :
    ∃ fc : FetchCall,
      (request t m path o =
        match t fc with
        | .error e => .error e
        | .ok response => shapeResponse response) ∧
      fc.method = m ∧ fc.url = url ∧
      fc.headers = mergedHeaders o.body o.headers ∧
      fc.body = (if isJsonBody o.body then .str (jsonStringify o.body) else o.body) ∧
      fc.rest = o.rest := by
  refine ⟨{ method := m, url := url, headers := mergedHeaders o.body o.headers,
            body := if isJsonBody o.body then .str (jsonStringify o.body) else o.body,
            rest := o.rest }, ?_, rfl, rfl, rfl, rfl, rfl⟩
  unfold request
  rw [hb]

/-- Witness for C9 at a concrete input. -/
theorem claim_C9_witness :
    ∃ fc : FetchCall,
      (request (fun _ => Except.error (.networkFailure "down")) .POST "http://example.com"
          { body := .null } =
        match (fun _ => Except.error (.networkFailure "down") : Transport) fc with
        | .error e => .error e
        | .ok response => shapeResponse response) ∧
      fc.method = .POST ∧ fc.url = "http://example.com" ∧
      fc.headers = mergedHeaders ({ body := .null } : RequestOptions).body
        ({ body := .null } : RequestOptions).headers ∧
      fc.body = (if isJsonBody ({ body := .null } : RequestOptions).body
        then .str (jsonStringify ({ body := .null } : RequestOptions).body)
        else ({ body := .null } : RequestOptions).body) ∧
      fc.rest = ({ body := .null } : RequestOptions).rest :=
  claim_C9 (fun _ => Except.error (.networkFailure "down")) .POST "http://example.com"
    { body := .null } "http://example.com" (by rfl)

/-- Claim C10: for post, put and patch the positional body argument always
overwrites any `body` field supplied inside the options object — including when
the positional body is undefined: dispatching `post(url, undefined, {body := x})`
is identical to dispatching with no body at all (the classifier sees undefined),
not a dispatch with `x`. -/
theorem claim_C10 (t : Transport) (path : String) (b x : JsValue) (o : RequestOptions) :
    (httpPost t path b (some { o with body := x }) =
      request t .POST path { o with body := b }) ∧
    (httpPut t path b (some { o with body := x }) =
      request t .PUT path { o with body := b }) ∧
    (httpPatch t path b (some { o with body := x }) =
      request t .PATCH path { o with body := b }) ∧
    (httpPost t path .undef (some { o with body := x }) =
      httpPost t path .undef (some o)) :=
  ⟨rfl, rfl, rfl, rfl⟩

end HttpWrapper
